import Mathlib

/-!
Verification development for the `rs_command_line_worker` repository.

The worker's core (`src/message.rs`) has three functions:

* `compile_command_template` substitutes `{key}` placeholders of a command
  template by parameter values, skipping the two reserved identifiers;
* `launch` tokenises the compiled command on single spaces, spawns the
  program, and classifies the captured output by exit status;
* `process` maps the launch outcome to a job result, truncating a success
  message to 1 MiB.

Rust strings are modelled as `List Char`; captured byte streams as
`List Nat` (byte values); Rust standard-library operations used by the code
(`str::split`, `str::replace`, `String::from_utf8`, `String::truncate`) are
given executable models below, each faithful to its documented semantics.
The iteration order of the Rust `HashMap` is unspecified, so the parameter
map is modelled as an association list whose order is the iteration order.
Effects (the OS spawn) enter as an explicit input of type `SpawnOutcome`.
-/

/-- Characters of a string literal; the development models Rust strings as
lists of characters. -/
def str (s : String) : List Char := s.data

/-- Reserved identifier naming the command template itself
(`COMMAND_TEMPLATE_IDENTIFIER` in `src/message.rs`). -/
def COMMAND_TEMPLATE_IDENTIFIER : List Char := str "command_template"

/-- Reserved identifier naming the execution directory
(`EXECUTION_DIRECTORY_PARAMETER` in `src/message.rs`). -/
def EXECUTION_DIRECTORY_PARAMETER : List Char := str "exec_dir"

/-- The reserved identifiers excluded from substitution
(`INTERNAL_PARAM_IDENTIFIERS` in `src/message.rs`). -/
def INTERNAL_PARAM_IDENTIFIERS : List (List Char) :=
  [COMMAND_TEMPLATE_IDENTIFIER, EXECUTION_DIRECTORY_PARAMETER]

/-- Scanner for Rust `str::replace`: the `Nat` argument counts characters of
a matched pattern occurrence that remain to be skipped; at `0` the scanner
tests for a match of `p :: ps` at the current position.  Matching is
leftmost-first and non-overlapping, and the replacement `rep` is emitted,
never rescanned — a single pass. -/
def replAux (p : Char) (ps rep : List Char) : Nat → List Char → List Char
  | _, [] => []
  | Nat.succ k, _ :: rest => replAux p ps rep k rest
  | 0, c :: rest =>
    if (p :: ps).isPrefixOf (c :: rest) then rep ++ replAux p ps rep ps.length rest
    else c :: replAux p ps rep 0 rest

/-- Rust `String::replace(from, to)` on character lists: every leftmost,
non-overlapping occurrence of `pat` in `s` is replaced by `rep`, in a single
pass.  The program only calls this with patterns of the nonempty shape
`{key}`; the empty-pattern case (never reached here) is the identity. -/
def replaceAll (s pat rep : List Char) : List Char :=
  match pat with
  | [] => s
  | p :: ps => replAux p ps rep 0 s

/-- Placeholder built by `format!("{{{}}}", key)` in the source: an opening
brace, the key, a closing brace. -/
def placeholder (key : List Char) : List Char := '{' :: (key ++ ['}'])

/-- Model of `compile_command_template` from `src/message.rs`: every
parameter whose key is not one of the `INTERNAL_PARAM_IDENTIFIERS` is
applied, in iteration order, by replacing `{key}` with its value in the
progressively updated template. -/
def compile_command_template (command_template : List Char)
    (param_map : List (List Char × List Char)) : List Char :=
  (param_map.filter fun kv => !(INTERNAL_PARAM_IDENTIFIERS.contains kv.1)).foldl
    (fun acc kv => replaceAll acc (placeholder kv.1) kv.2) command_template

/-- Rust `command.split(' ')` on character lists: split on every single
space; adjacent separators and boundary separators produce empty tokens, and
the empty string yields the one-element list of the empty token. -/
def splitCmd : List Char → List (List Char)
  | [] => [[]]
  | c :: rest =>
    if c = ' ' then [] :: splitCmd rest
    else
      match splitCmd rest with
      | [] => [[c]]
      | t :: ts => (c :: t) :: ts

/-- Byte length of the UTF-8 encoding of one character
(Rust `char::len_utf8`). -/
def charLen (c : Char) : Nat :=
  if c.toNat < 128 then 1
  else if c.toNat < 2048 then 2
  else if c.toNat < 65536 then 3
  else 4

/-- Byte length of the UTF-8 encoding of a string (Rust `String::len`). -/
def byteLen (s : List Char) : Nat := (s.map charLen).sum

/-- Byte-by-byte scanner for strict UTF-8 validation and decoding (Rust
`String::from_utf8`), written as the standard UTF-8 acceptor automaton:
`need` counts continuation bytes still expected, `cp` accumulates the code
point decoded so far, and `low` is the smallest code point the current
sequence's width may legally produce (the overlong check).  A completed
sequence is accepted when its code point is at or above `low`, below
`0x110000`, and not a surrogate. -/
def utf8Aux (cp need low : Nat) : List Nat → Option (List Char)
  | [] => if need = 0 then some [] else none
  | b :: rest =>
    match need with
    | 0 =>
      if b < 128 then (utf8Aux 0 0 0 rest).map fun cs => Char.ofNat b :: cs
      else if b < 194 then none
      else if b < 224 then utf8Aux (b - 192) 1 128 rest
      else if b < 240 then utf8Aux (b - 224) 2 2048 rest
      else if b < 245 then utf8Aux (b - 240) 3 65536 rest
      else none
    | Nat.succ need2 =>
      if 128 ≤ b ∧ b < 192 then
        if need2 = 0 then
          if low ≤ cp * 64 + (b - 128) ∧ cp * 64 + (b - 128) < 1114112 ∧
              ¬ (55296 ≤ cp * 64 + (b - 128) ∧ cp * 64 + (b - 128) < 57344) then
            (utf8Aux 0 0 0 rest).map fun cs => Char.ofNat (cp * 64 + (b - 128)) :: cs
          else none
        else utf8Aux (cp * 64 + (b - 128)) need2 low rest
      else none

/-- Strict UTF-8 validation and decoding (Rust `String::from_utf8`):
`some` of the decoded characters when the bytes are valid UTF-8 — rejecting
stray continuation bytes, truncated sequences, overlong forms, surrogates
and out-of-range code points — and `none` otherwise. -/
def utf8Decode (bs : List Nat) : Option (List Char) := utf8Aux 0 0 0 bs

/-- Model of `String::from_utf8(bytes).unwrap_or_default()` as used in
`launch`: the decoded text when the bytes are valid UTF-8, and the empty
string otherwise. -/
def fromUtf8OrDefault (bs : List Nat) : List Char := (utf8Decode bs).getD []

/-- The parts of `std::process::Output` the program reads: the exit-status
success flag and the captured stdout and stderr byte streams. -/
structure Output where
  success : Bool
  stdout : List Nat
  stderr : List Nat

/-- Outcome of the OS-level spawn attempt, supplied to the model as an
input: `Except.error` carries the debug description of the `std::io::Error`
when the child process could not be created, `Except.ok` the process
output. -/
abbrev SpawnOutcome := Except (List Char) Output

/-- Diagnostic of the empty-token-list guard in `launch`. -/
def missingExecutableMsg : List Char :=
  str "missing executable in the command line template"

/-- Diagnostic built by `launch` when the spawn itself fails:
`format!("An error occurred process command: {}.\n{:?}", command, error)`. -/
def spawnErrorMsg (command err : List Char) : List Char :=
  str "An error occurred process command: " ++ command ++ str ".\n" ++ err

/-- The part of `launch` after tokenisation: run the program with the given
arguments (the spawn attempt's outcome is the input `sp`), then decode and
classify the captured output by exit status.  On success the stdout bytes
are decoded; on failure stderr is extended with stdout and the concatenation
is decoded as the diagnostic. -/
def runCommand (program : List Char) (args : List (List Char))
    (command : List Char) (execDir : Option (List Char)) (sp : SpawnOutcome) :
    Except (List Char) (List Char) :=
  match sp with
  | .error err => .error (spawnErrorMsg command err)
  | .ok out =>
    if out.success then .ok (fromUtf8OrDefault out.stdout)
    else .error (fromUtf8OrDefault (out.stderr ++ out.stdout))

/-- Model of `launch` from `src/message.rs`: split the command on single
spaces; if the token list is empty, fail with `missingExecutableMsg`;
otherwise remove the first token as the program name and run it with the
remaining tokens as arguments. -/
def launch (command : List Char) (execDir : Option (List Char)) (sp : SpawnOutcome) :
    Except (List Char) (List Char) :=
  match splitCmd command with
  | [] => .error missingExecutableMsg
  | program :: args => runCommand program args command execDir sp

/-- Job status as set by `process`: `JobStatus::Completed` or
`JobStatus::Error`. -/
inductive JobStatus where
  | completed
  | error
  deriving DecidableEq

/-- The slice of the SDK's `JobResult` the program touches: the job
identifier it carries and the status and message set by `process`. -/
structure JobResult where
  job_id : Nat
  status : JobStatus
  message : List Char
  deriving DecidableEq

/-- The deserialised worker parameters (`CommandLineWorkerParameters`):
the mandatory template, the open parameter map, and the optional execution
directory. -/
structure CommandLineWorkerParameters where
  command_template : List Char
  parameters : List (List Char × List Char)
  exec_dir : Option (List Char)

/-- Model of Rust `String::truncate new_len` on a valid UTF-8 string,
tracking byte positions: `some` of the kept prefix when `new_len` is at or
beyond the end or on a character boundary; `none` models the panic raised
when `new_len` falls strictly inside a multi-byte character. -/
def truncAux (n : Nat) : List Char → Option (List Char)
  | [] => some []
  | c :: rest =>
    if n = 0 then some []
    else if charLen c ≤ n then (truncAux (n - charLen c) rest).map fun t => c :: t
    else none

/-- Model of `process` from `src/message.rs`: compile the template, launch
the command, map a launch failure to an Error-status result carrying the
diagnostic (no truncation on this path), and truncate a success message to
1 MiB (1,048,576 bytes) before attaching it to a Completed-status result.
The source's first argument, the optional channel, is unused by the code
and omitted here.  The outer `Option` is `none` exactly when
`String::truncate` panics. -/
def process (parameters : CommandLineWorkerParameters) (job_result : JobResult)
    (sp : SpawnOutcome) : Option (Except JobResult JobResult) :=
  match launch (compile_command_template parameters.command_template parameters.parameters)
      parameters.exec_dir sp with
  | .error msg => some (.error { job_result with status := .error, message := msg })
  | .ok result =>
    (truncAux 1048576 result).map fun r =>
      .ok { job_result with status := .completed, message := r }

/-- Decidable substring occurrence test: does `pat` occur as a contiguous
substring?  Mirrors the scan of `replAux` position by position. -/
def containsSub (pat : List Char) : List Char → Bool
  | [] => pat.isEmpty
  | c :: rest => pat.isPrefixOf (c :: rest) || containsSub pat rest

/-- Interleaving of segments with a separator, used to describe templates
with an explicit list of placeholder occurrences. -/
def interc (sep : List Char) : List (List Char) → List Char
  | [] => []
  | [s] => s
  | s :: s2 :: rest => s ++ sep ++ interc sep (s2 :: rest)

/-! Helper lemmas about the scanner `replAux`. -/

theorem isPrefixOf_self_append (l t : List Char) : l.isPrefixOf (l ++ t) = true := by
  induction l with
  | nil => simp [List.isPrefixOf]
  | cons a as ih => simp [List.isPrefixOf, ih]

theorem replAux_nil (p : Char) (ps rep : List Char) (n : Nat) :
    replAux p ps rep n [] = [] := by
  cases n <;> rfl

theorem replAux_skip (p : Char) (ps rep : List Char) (s t : List Char) :
    replAux p ps rep s.length (s ++ t) = replAux p ps rep 0 t := by
  induction s with
  | nil => rfl
  | cons c s' ih => simpa [replAux] using ih

theorem replAux_match (p : Char) (ps rep t : List Char) :
    replAux p ps rep 0 ((p :: ps) ++ t) = rep ++ replAux p ps rep 0 t := by
  have h := isPrefixOf_self_append (p :: ps) t
  simp only [List.cons_append] at h
  simp only [List.cons_append, replAux, List.append_eq, h, if_true]
  rw [← replAux_skip p ps rep ps t]

theorem replAux_cons_ne (p : Char) (ps rep : List Char) (c : Char) (t : List Char)
    (h : c ≠ p) : replAux p ps rep 0 (c :: t) = c :: replAux p ps rep 0 t := by
  have hpc : (p == c) = false := by simp [Ne.symm h]
  have : (p :: ps).isPrefixOf (c :: t) = false := by
    simp [List.isPrefixOf, hpc]
  simp [replAux, this]

theorem replAux_nobrace_append (qs rep s t : List Char) (h : '{' ∉ s) :
    replAux '{' qs rep 0 (s ++ t) = s ++ replAux '{' qs rep 0 t := by
  induction s with
  | nil => rfl
  | cons c s' ih =>
    have hc : c ≠ '{' := fun hc => h (hc ▸ List.mem_cons_self c s')
    have hs' : '{' ∉ s' := fun hs => h (List.mem_cons_of_mem c hs)
    rw [List.cons_append, replAux_cons_ne _ _ _ _ _ hc, ih hs']
    simp

theorem replAux_nobrace (qs rep s : List Char) (h : '{' ∉ s) :
    replAux '{' qs rep 0 s = s := by
  have := replAux_nobrace_append qs rep s [] h
  simpa [replAux_nil] using this

theorem replaceAll_interc (k v : List Char) (segs : List (List Char))
    (hsegs : ∀ s ∈ segs, '{' ∉ s) :
    replaceAll (interc (placeholder k) segs) (placeholder k) v = interc v segs := by
  induction segs with
  | nil => rfl
  | cons s rest ih =>
    cases rest with
    | nil =>
      simp only [interc, replaceAll, placeholder]
      exact replAux_nobrace _ _ s (hsegs s (List.mem_cons_self s []))
    | cons s2 rest2 =>
      have hs : '{' ∉ s := hsegs s (List.mem_cons_self ..)
      have hrest : ∀ x ∈ s2 :: rest2, '{' ∉ x := fun x hx =>
        hsegs x (List.mem_cons_of_mem s hx)
      have ih' := ih hrest
      simp only [interc, replaceAll, placeholder] at ih' ⊢
      rw [List.append_assoc, replAux_nobrace_append _ _ _ _ hs, replAux_match, ih']
      simp [List.append_assoc]

/-! Helper lemmas about substring occurrence. -/

theorem containsSub_of_not (p : Char) (ps rep t : List Char)
    (h : containsSub (p :: ps) t = false) : replAux p ps rep 0 t = t := by
  induction t with
  | nil => rfl
  | cons c rest ih =>
    simp only [containsSub, Bool.or_eq_false_iff] at h
    simp [replAux, h.1, ih h.2]

theorem replaceAll_of_not_containsSub (t pat rep : List Char)
    (h : containsSub pat t = false) : replaceAll t pat rep = t := by
  cases pat with
  | nil => rfl
  | cons p ps => exact containsSub_of_not p ps rep t h

theorem containsSub_nobrace_append (qs s t : List Char) (h : '{' ∉ s) :
    containsSub ('{' :: qs) (s ++ t) = containsSub ('{' :: qs) t := by
  induction s with
  | nil => rfl
  | cons c s' ih =>
    have hc : c ≠ '{' := fun hc => h (hc ▸ List.mem_cons_self c s')
    have hs' : '{' ∉ s' := fun hs => h (List.mem_cons_of_mem c hs)
    have hpc : (('{' : Char) == c) = false := by simp [Ne.symm hc]
    simp [containsSub, List.isPrefixOf, hpc, ih hs']

theorem prefix_closing (k j z : List Char) (hk : '}' ∉ k) (hj : '}' ∉ j)
    (h : (k ++ ['}']).isPrefixOf (j ++ ['}'] ++ z) = true) : k = j := by
  induction k generalizing j with
  | nil =>
    cases j with
    | nil => rfl
    | cons c j' =>
      exfalso
      simp only [List.nil_append, List.cons_append, List.isPrefixOf,
        Bool.and_eq_true, beq_iff_eq] at h
      exact hj (h.1 ▸ List.mem_cons_self c j')
  | cons a k' ih =>
    cases j with
    | nil =>
      exfalso
      simp only [List.cons_append, List.nil_append, List.isPrefixOf,
        Bool.and_eq_true, beq_iff_eq] at h
      exact hk (h.1 ▸ List.mem_cons_self a k')
    | cons c j' =>
      have hk' : '}' ∉ k' := fun hx => hk (List.mem_cons_of_mem a hx)
      have hj' : '}' ∉ j' := fun hx => hj (List.mem_cons_of_mem c hx)
      simp only [List.cons_append, List.isPrefixOf, Bool.and_eq_true, beq_iff_eq,
        List.append_eq] at h
      rw [h.1, ih j' hk' hj' (by simpa [List.append_assoc] using h.2)]

theorem containsSub_placeholder_append (k j t : List Char) (hne : k ≠ j)
    (hk : '}' ∉ k) (hj : '}' ∉ j) (hjb : '{' ∉ j) :
    containsSub (placeholder k) (placeholder j ++ t) = containsSub (placeholder k) t := by
  have e1 : placeholder j ++ t = '{' :: ((j ++ ['}']) ++ t) := by simp [placeholder]
  have hpre : (placeholder k).isPrefixOf ('{' :: ((j ++ ['}']) ++ t)) = false := by
    cases hb : (placeholder k).isPrefixOf ('{' :: ((j ++ ['}']) ++ t)) with
    | false => rfl
    | true =>
      exfalso
      have hb' : (k ++ ['}']).isPrefixOf ((j ++ ['}']) ++ t) = true := by
        simpa [placeholder, List.isPrefixOf] using hb
      exact hne (prefix_closing k j t hk hj (by simpa [List.append_assoc] using hb'))
  have hnb : '{' ∉ j ++ ['}'] := by
    intro hx
    rcases List.mem_append.mp hx with hx | hx
    · exact hjb hx
    · simp at hx
  rw [e1]
  rw [show containsSub (placeholder k) ('{' :: ((j ++ ['}']) ++ t)) =
      ((placeholder k).isPrefixOf ('{' :: ((j ++ ['}']) ++ t)) ||
        containsSub (placeholder k) ((j ++ ['}']) ++ t)) from rfl]
  rw [hpre, Bool.false_or]
  cases hpk : placeholder k with
  | nil => simp [placeholder] at hpk
  | cons p ps =>
    have hp : p = '{' := by
      have : placeholder k = '{' :: (k ++ ['}']) := rfl
      rw [this] at hpk
      exact (List.cons.injEq .. ▸ hpk).1.symm
    subst hp
    exact containsSub_nobrace_append ps (j ++ ['}']) t hnb

theorem containsSub_interc_ne (k j v : List Char) (segs : List (List Char))
    (hne : k ≠ j) (hk : '}' ∉ k) (hj : '}' ∉ j) (hjb : '{' ∉ j)
    (hsegs : ∀ s ∈ segs, '{' ∉ s) :
    containsSub (placeholder k) (interc (placeholder j) segs) = false := by
  induction segs with
  | nil => simp [interc, containsSub, placeholder]
  | cons s rest ih =>
    cases rest with
    | nil =>
      simp only [interc]
      have hs : '{' ∉ s := hsegs s (List.mem_cons_self ..)
      have := containsSub_nobrace_append (k ++ ['}']) s [] hs
      simp only [List.append_nil] at this
      simp [placeholder, this, containsSub]
    | cons s2 rest2 =>
      have hs : '{' ∉ s := hsegs s (List.mem_cons_self ..)
      have hrest : ∀ x ∈ s2 :: rest2, '{' ∉ x := fun x hx =>
        hsegs x (List.mem_cons_of_mem s hx)
      have ih' := ih hrest
      simp only [interc, List.append_assoc]
      rw [show placeholder k = '{' :: (k ++ ['}']) from rfl] at ih' ⊢
      rw [containsSub_nobrace_append (k ++ ['}']) s _ hs]
      rw [show ('{' :: (k ++ ['}'])) = placeholder k from rfl] at ih' ⊢
      rw [containsSub_placeholder_append k j _ hne hk hj hjb]
      exact ih'

/-! Helper lemmas about the compile step's filter. -/

theorem filter_self_idem {α : Type} (p : α → Bool) (l : List α) :
    (l.filter p).filter p = l.filter p := by
  induction l with
  | nil => rfl
  | cons a l ih => cases h : p a <;> simp [List.filter_cons, h, ih]

theorem compile_single (t k v : List Char) (hk : k ∉ INTERNAL_PARAM_IDENTIFIERS) :
    compile_command_template t [(k, v)] = replaceAll t (placeholder k) v := by
  have hc : INTERNAL_PARAM_IDENTIFIERS.contains k = false := by
    cases hb : INTERNAL_PARAM_IDENTIFIERS.contains k
    · rfl
    · exact absurd (by simpa using hb) hk
  simp only [compile_command_template, List.filter_cons, List.filter_nil, hc,
    Bool.not_false, if_true, List.foldl_cons, List.foldl_nil]

theorem compile_filter_all_reserved (t : List Char) (m : List (List Char × List Char))
    (h : ∀ kv ∈ m, kv.1 ∈ INTERNAL_PARAM_IDENTIFIERS) :
    compile_command_template t m = t := by
  have hnil : m.filter (fun kv => !(INTERNAL_PARAM_IDENTIFIERS.contains kv.1)) = [] := by
    rw [List.filter_eq_nil_iff]
    intro kv hkv
    simp [h kv hkv]
  unfold compile_command_template
  rw [hnil]
  rfl

/-! Helper lemmas about byte lengths and truncation. -/

theorem charLen_pos (c : Char) : 1 ≤ charLen c := by
  unfold charLen
  split
  · omega
  split
  · omega
  split
  · omega
  · omega

theorem byteLen_cons (c : Char) (s : List Char) :
    byteLen (c :: s) = charLen c + byteLen s := by
  simp [byteLen]

theorem byteLen_append (a b : List Char) :
    byteLen (a ++ b) = byteLen a + byteLen b := by
  simp [byteLen]

theorem byteLen_replicate (n : Nat) (c : Char) :
    byteLen (List.replicate n c) = n * charLen c := by
  simp [byteLen, List.map_replicate, List.sum_replicate, smul_eq_mul]

theorem truncAux_boundary (pre : List Char) :
    ∀ (n : Nat) (rest : List Char), byteLen pre ≤ n →
      truncAux n (pre ++ rest) = (truncAux (n - byteLen pre) rest).map fun t => pre ++ t := by
  induction pre with
  | nil =>
    intro n rest _
    simp [byteLen]
  | cons c pre' ih =>
    intro n rest h
    rw [byteLen_cons] at h
    have hc : charLen c ≤ n := le_trans (Nat.le_add_right _ _) h
    have hn : n ≠ 0 := by
      have := charLen_pos c
      omega
    rw [List.cons_append]
    rw [show truncAux n (c :: (pre' ++ rest)) =
        (truncAux (n - charLen c) (pre' ++ rest)).map (fun t => c :: t) from by
      simp [truncAux, hn, hc]]
    rw [ih (n - charLen c) rest (by omega)]
    rw [Option.map_map]
    rw [byteLen_cons, Nat.sub_sub]
    cases truncAux (n - (charLen c + byteLen pre')) rest <;> simp

/-! Helper lemmas about UTF-8 decoding. -/

theorem utf8Decode_ascii_append (a t : List Nat) (h : ∀ b ∈ a, b < 128) :
    utf8Decode (a ++ t) = (utf8Decode t).map fun cs => a.map Char.ofNat ++ cs := by
  induction a with
  | nil =>
    simp
  | cons b a' ih =>
    have hb : b < 128 := h b (List.mem_cons_self ..)
    have ha' : ∀ x ∈ a', x < 128 := fun x hx => h x (List.mem_cons_of_mem b hx)
    rw [List.cons_append]
    rw [show utf8Decode (b :: (a' ++ t)) =
        (utf8Decode (a' ++ t)).map (fun cs => Char.ofNat b :: cs) from by
      unfold utf8Decode
      rw [utf8Aux.eq_def]
      simp [hb]]
    rw [ih ha', Option.map_map]
    cases utf8Decode t <;> simp

theorem utf8Decode_ascii (a : List Nat) (h : ∀ b ∈ a, b < 128) :
    utf8Decode a = some (a.map Char.ofNat) := by
  have h2 := utf8Decode_ascii_append a [] h
  rw [List.append_nil] at h2
  rw [h2, show utf8Decode [] = some [] from rfl]
  simp

/-! Helper lemmas about tokenisation and launching. -/

theorem splitCmd_ne_nil (s : List Char) : splitCmd s ≠ [] := by
  cases s with
  | nil => simp [splitCmd]
  | cons c rest =>
    simp only [splitCmd]
    split
    · simp
    · split <;> simp

theorem launch_eq_runCommand (cmd : List Char) (dir : Option (List Char)) (sp : SpawnOutcome) :
    launch cmd dir sp =
      runCommand ((splitCmd cmd).headD []) ((splitCmd cmd).tail) cmd dir sp := by
  cases h : splitCmd cmd with
  | nil => exact absurd h (splitCmd_ne_nil cmd)
  | cons a as => simp [launch, h]

theorem containsSub_sandwich (pat a b : List Char) :
    containsSub pat (a ++ (pat ++ b)) = true := by
  induction a with
  | nil =>
    cases pat with
    | nil => cases b <;> simp [containsSub, List.isPrefixOf]
    | cons p ps =>
      have hpre := isPrefixOf_self_append (p :: ps) b
      simp only [List.nil_append, List.cons_append] at hpre ⊢
      simp [containsSub, hpre]
  | cons c a' ih => simp [containsSub, ih]

/-!
Claim theorems.
-/

/-- C1: for every template and parameter map, `compile_command_template`
never substitutes the reserved keys: the compiled command is the same as
with the reserved entries removed from the map (first conjunct), adding a
reserved entry anywhere changes nothing (second and third conjuncts), and a
map holding only the two reserved keys leaves every placeholder — including
the literal placeholders of the reserved names themselves — untouched
(fourth conjunct). -/
theorem compile_reserved_keys_never_substituted :
    (∀ (t : List Char) (m : List (List Char × List Char)),
      compile_command_template t m =
        compile_command_template t
          (m.filter fun kv => !(INTERNAL_PARAM_IDENTIFIERS.contains kv.1))) ∧
    (∀ (t v : List Char) (m : List (List Char × List Char)),
      compile_command_template t ((COMMAND_TEMPLATE_IDENTIFIER, v) :: m) =
        compile_command_template t m) ∧
    (∀ (t w : List Char) (m : List (List Char × List Char)),
      compile_command_template t ((EXECUTION_DIRECTORY_PARAMETER, w) :: m) =
        compile_command_template t m) ∧
    (∀ (t v w : List Char),
      compile_command_template t
        [(COMMAND_TEMPLATE_IDENTIFIER, v), (EXECUTION_DIRECTORY_PARAMETER, w)] = t) := by
  refine ⟨?_, ?_, ?_, ?_⟩
  · intro t m
    simp only [compile_command_template, filter_self_idem]
  · intro t v m
    simp only [compile_command_template, List.filter_cons,
      show (!(INTERNAL_PARAM_IDENTIFIERS.contains COMMAND_TEMPLATE_IDENTIFIER)) = false
        from by decide, Bool.false_eq_true, if_false]
  · intro t w m
    simp only [compile_command_template, List.filter_cons,
      show (!(INTERNAL_PARAM_IDENTIFIERS.contains EXECUTION_DIRECTORY_PARAMETER)) = false
        from by decide, Bool.false_eq_true, if_false]
  · intro t v w
    refine compile_filter_all_reserved t _ ?_
    intro kv hkv
    rcases List.mem_cons.mp hkv with h | h
    · rw [h]
      simp [INTERNAL_PARAM_IDENTIFIERS]
    · rcases List.mem_cons.mp h with h2 | h2
      · rw [h2]
        simp [INTERNAL_PARAM_IDENTIFIERS]
      · simp at h2

/-- C10: `compile_command_template` is the identity on the template whenever
every key of the parameter map is reserved — in particular when the map is
empty or holds only `command_template` and `exec_dir`. -/
theorem compile_identity_reserved_only :
    ∀ (t : List Char) (m : List (List Char × List Char)),
      (∀ kv ∈ m, kv.1 ∈ INTERNAL_PARAM_IDENTIFIERS) →
      compile_command_template t m = t :=
  compile_filter_all_reserved

/-- Witness for C10 at a concrete input: a map holding exactly the two
reserved keys leaves a template mentioning both placeholders unchanged. -/
theorem compile_identity_reserved_only_witness :
    (∀ kv ∈ [(COMMAND_TEMPLATE_IDENTIFIER, str "x"),
        (EXECUTION_DIRECTORY_PARAMETER, str "/tmp")],
      kv.1 ∈ INTERNAL_PARAM_IDENTIFIERS) ∧
    compile_command_template (str "run {command_template} in {exec_dir}")
        [(COMMAND_TEMPLATE_IDENTIFIER, str "x"),
         (EXECUTION_DIRECTORY_PARAMETER, str "/tmp")] =
      str "run {command_template} in {exec_dir}" :=
  ⟨by decide, compile_identity_reserved_only _ _ (by decide)⟩

/-- C2: substitution of one non-reserved key `k`.  First conjunct: in a
template that is segments free of opening braces interleaved with `N`
copies of the placeholder `{k}`, all `N` occurrences are replaced by the
same value.  Second conjunct: when the placeholder does not occur in the
template, the parameter is a no-op.  Third conjunct: a placeholder `{j}`
of a key absent from the parameter map is left in the output as a literal
substring (the whole template is returned unchanged). -/
theorem compile_substitution_semantics :
    (∀ (k v : List Char) (segs : List (List Char)),
      k ∉ INTERNAL_PARAM_IDENTIFIERS →
      (∀ s ∈ segs, '{' ∉ s) →
      compile_command_template (interc (placeholder k) segs) [(k, v)] = interc v segs) ∧
    (∀ (t k v : List Char),
      containsSub (placeholder k) t = false →
      compile_command_template t [(k, v)] = t) ∧
    (∀ (j k v : List Char) (segs : List (List Char)),
      k ≠ j → '}' ∉ k → '}' ∉ j → '{' ∉ j →
      (∀ s ∈ segs, '{' ∉ s) →
      compile_command_template (interc (placeholder j) segs) [(k, v)] =
        interc (placeholder j) segs) := by
  refine ⟨?_, ?_, ?_⟩
  · intro k v segs hk hsegs
    rw [compile_single _ _ _ hk]
    exact replaceAll_interc k v segs hsegs
  · intro t k v hnc
    by_cases hk : k ∈ INTERNAL_PARAM_IDENTIFIERS
    · refine compile_filter_all_reserved t _ ?_
      intro kv hkv
      rcases List.mem_cons.mp hkv with h | h
      · rw [h]; exact hk
      · simp at h
    · rw [compile_single _ _ _ hk]
      exact replaceAll_of_not_containsSub t _ v hnc
  · intro j k v segs hne hk hj hjb hsegs
    by_cases hkr : k ∈ INTERNAL_PARAM_IDENTIFIERS
    · refine compile_filter_all_reserved _ _ ?_
      intro kv hkv
      rcases List.mem_cons.mp hkv with h | h
      · rw [h]; exact hkr
      · simp at h
    · rw [compile_single _ _ _ hkr]
      exact replaceAll_of_not_containsSub _ _ v
        (containsSub_interc_ne k j v segs hne hk hj hjb hsegs)

/-- Witness for C2 at concrete inputs: the repository's own test template
with a repeated placeholder, a parameter absent from the template, and a
placeholder absent from the parameter map. -/
theorem compile_substitution_semantics_witness :
    compile_command_template
        (interc (placeholder (str "option")) [str "ls ", str " . ", str ""])
        [(str "option", str "-l")] = interc (str "-l") [str "ls ", str " . ", str ""] ∧
    compile_command_template (str "ls -l") [(str "option", str "-l")] = str "ls -l" ∧
    compile_command_template (interc (placeholder (str "path")) [str "ls ", str ""])
        [(str "option", str "-l")] =
      interc (placeholder (str "path")) [str "ls ", str ""] :=
  ⟨compile_substitution_semantics.1 (str "option") (str "-l") _ (by decide) (by decide),
   compile_substitution_semantics.2.1 _ (str "option") _ (by decide),
   compile_substitution_semantics.2.2 (str "path") (str "option") _ _
     (by decide) (by decide) (by decide) (by decide) (by decide)⟩

/-- C3 counterexample: with the template `{a}` and the two-entry map
`a ↦ {b}`, `b ↦ X`, the placeholder `{b}` introduced by substituting `a`
IS substituted when `b`'s pass runs later, and running the same map in the
other iteration order gives a different compiled command — refuting both
halves of the claim on an explicit input. -/
theorem compile_order_dependence_cex :
    compile_command_template (str "{a}")
        [(str "a", str "{b}"), (str "b", str "X")] = str "X" ∧
    compile_command_template (str "{a}")
        [(str "b", str "X"), (str "a", str "{b}")] = str "{b}" ∧
    compile_command_template (str "{a}")
        [(str "a", str "{b}"), (str "b", str "X")] ≠
      compile_command_template (str "{a}")
        [(str "b", str "X"), (str "a", str "{b}")] := by
  decide

/-- C3 amended: each key's pass is a single pass that never rescans its own
replacement — substituting the sole key `a` in the template `{a}` returns
the value verbatim even when the value itself contains `{a}` or another
placeholder (first conjunct; a fixpoint iteration would instead diverge or
substitute again).  However a later key's pass runs on the current,
already-substituted template, so a placeholder introduced by an earlier
value is substituted (second conjunct), and the compiled result can depend
on the map's iteration order (second and third conjuncts together). -/
theorem compile_single_pass_per_key :
    (∀ v : List Char, compile_command_template (str "{a}") [(str "a", v)] = v) ∧
    compile_command_template (str "{a}")
        [(str "a", str "{b}"), (str "b", str "X")] = str "X" ∧
    compile_command_template (str "{a}")
        [(str "b", str "X"), (str "a", str "{b}")] = str "{b}" := by
  refine ⟨?_, by decide, by decide⟩
  intro v
  rw [compile_single _ _ _ (by decide)]
  rw [show str "{a}" = placeholder (str "a") ++ [] from by decide]
  rw [show placeholder (str "a") = '{' :: (str "a" ++ ['}']) from rfl]
  rw [show replaceAll (('{' :: (str "a" ++ ['}'])) ++ []) ('{' :: (str "a" ++ ['}'])) v =
      replAux '{' (str "a" ++ ['}']) v 0 (('{' :: (str "a" ++ ['}'])) ++ []) from rfl]
  rw [replAux_match]
  simp [replAux_nil]

/-- C4 (evidence of the divergence): splitting the empty compiled command on
spaces yields the one-element list holding the empty token, and a
whitespace-only command yields two empty tokens, so the empty-token-list
guard is not taken; with an empty compiled command, `launch` proceeds to the
spawn attempt — a failing spawn yields the spawn-failure diagnostic built
from the empty command, never the `missingExecutableMsg` diagnostic the
specification prescribes for this input. -/
theorem empty_command_reaches_spawn :
    splitCmd [] = [[]] ∧
    splitCmd (str " ") = [[], []] ∧
    (∀ (dir : Option (List Char)) (err : List Char),
      launch [] dir (.error err) = .error (spawnErrorMsg [] err)) ∧
    (∀ (dir : Option (List Char)) (err : List Char),
      launch [] dir (.error err) ≠ .error missingExecutableMsg) := by
  refine ⟨rfl, rfl, fun dir err => rfl, fun dir err h => ?_⟩
  rw [show launch [] dir (.error err) = .error (spawnErrorMsg [] err) from rfl] at h
  injection h with h2
  have h3 : (spawnErrorMsg [] err).head? = some 'A' := rfl
  rw [h2] at h3
  exact absurd h3 (by decide)

/-- C9: splitting any command string on single spaces always yields at least
one (possibly empty) token, so the empty-token-list guard in `launch` is
unreachable: `launch` always reaches the post-guard `runCommand` step with
the first token as program name (second conjunct), and for the empty
compiled command that program name is the empty string (third conjunct). -/
theorem split_guard_unreachable :
    (∀ cmd : List Char, splitCmd cmd ≠ []) ∧
    (∀ (cmd : List Char) (dir : Option (List Char)) (sp : SpawnOutcome),
      launch cmd dir sp =
        runCommand ((splitCmd cmd).headD []) ((splitCmd cmd).tail) cmd dir sp) ∧
    (splitCmd []).headD [] = [] :=
  ⟨splitCmd_ne_nil, launch_eq_runCommand, rfl⟩

/-- C5 counterexample: a successful process whose stdout is the invalid byte
255 followed by the valid ASCII byte 65 yields the empty string — the
entire output is discarded, including the valid portion — even though the
byte 65 on its own decodes as valid text.  This refutes lossy,
replacement-based decoding at an explicit input. -/
theorem decode_not_lossy_cex :
    launch (str "x") none
        (.ok { success := true, stdout := [255, 65], stderr := [] }) = .ok [] ∧
    utf8Decode [65] = some [Char.ofNat 65] ∧
    utf8Decode [255, 65] = none := by
  refine ⟨rfl, rfl, rfl⟩

/-- C5 amended: decoding of captured output never raises a hard error — a
string is always produced and a successful process always yields `ok` of
the decoded stdout (fourth conjunct) — but the decoding is strict rather
than lossy: bytes that are valid UTF-8 decode exactly (second and third
conjuncts), while any invalid sequence anywhere makes the entire output the
empty string, discarding the valid portions too (first conjunct). -/
theorem decode_strict_never_error :
    (∀ bs : List Nat, (utf8Decode bs).isNone → fromUtf8OrDefault bs = []) ∧
    (∀ (bs : List Nat) (cs : List Char),
      utf8Decode bs = some cs → fromUtf8OrDefault bs = cs) ∧
    (∀ bs : List Nat, (∀ b ∈ bs, b < 128) →
      fromUtf8OrDefault bs = bs.map Char.ofNat) ∧
    (∀ (cmd : List Char) (dir : Option (List Char)) (out : Output),
      out.success = true →
      launch cmd dir (.ok out) = .ok (fromUtf8OrDefault out.stdout)) := by
  refine ⟨?_, ?_, ?_, ?_⟩
  · intro bs h
    unfold fromUtf8OrDefault
    cases hd : utf8Decode bs with
    | none => rfl
    | some cs =>
      rw [hd] at h
      simp at h
  · intro bs cs h
    simp [fromUtf8OrDefault, h]
  · intro bs h
    simp [fromUtf8OrDefault, utf8Decode_ascii bs h]
  · intro cmd dir out h
    rw [launch_eq_runCommand]
    simp [runCommand, h]

/-- Witness for C5 amended at concrete inputs: the invalid byte 255 makes
the whole output empty; the ASCII bytes of `Hi` decode byte per byte; a
successful process returns its decoded stdout. -/
theorem decode_strict_never_error_witness :
    fromUtf8OrDefault [255] = [] ∧
    fromUtf8OrDefault [72, 105] = [Char.ofNat 72, Char.ofNat 105] ∧
    launch (str "x") none (.ok { success := true, stdout := [72], stderr := [] }) =
      .ok (fromUtf8OrDefault [72]) :=
  ⟨decode_strict_never_error.1 [255] (by decide),
   by simpa using decode_strict_never_error.2.2.1 [72, 105] (by decide),
   decode_strict_never_error.2.2.2 (str "x") none
     { success := true, stdout := [72], stderr := [] } rfl⟩

/-- C6: a process that completes with an unsuccessful exit status makes
`launch` fail with the captured stderr bytes followed by the captured
stdout bytes, concatenated in exactly that order and then decoded (first
conjunct); when the bytes are ASCII the diagnostic is literally the stderr
text followed by the stdout text (second conjunct). -/
theorem failure_diagnostic_stderr_then_stdout :
    ∀ (cmd : List Char) (dir : Option (List Char)) (out : Output),
      out.success = false →
      launch cmd dir (.ok out) =
        .error (fromUtf8OrDefault (out.stderr ++ out.stdout)) ∧
      ((∀ b ∈ out.stderr ++ out.stdout, b < 128) →
        launch cmd dir (.ok out) =
          .error (out.stderr.map Char.ofNat ++ out.stdout.map Char.ofNat)) := by
  intro cmd dir out h
  constructor
  · rw [launch_eq_runCommand]
    simp [runCommand, h]
  · intro hascii
    rw [launch_eq_runCommand]
    simp only [runCommand, h, Bool.false_eq_true, if_false]
    rw [show fromUtf8OrDefault (out.stderr ++ out.stdout) =
        out.stderr.map Char.ofNat ++ out.stdout.map Char.ofNat from by
      simp [fromUtf8OrDefault, utf8Decode_ascii _ hascii]]

/-- Witness for C6 at a concrete input: stderr byte `E` and stdout byte `O`
of a failing process produce the diagnostic `EO`, stderr first. -/
theorem failure_diagnostic_stderr_then_stdout_witness :
    launch (str "x") none
        (.ok { success := false, stdout := [79], stderr := [69] }) =
      .error (fromUtf8OrDefault ([69] ++ [79])) ∧
    launch (str "x") none
        (.ok { success := false, stdout := [79], stderr := [69] }) =
      .error [Char.ofNat 69, Char.ofNat 79] := by
  have h := failure_diagnostic_stderr_then_stdout (str "x") none
    { success := false, stdout := [79], stderr := [69] } rfl
  exact ⟨h.1, by simpa using h.2 (by decide)⟩

/-- C8: when the OS-level spawn fails, `launch` fails with the diagnostic
built from the attempted compiled command string and the OS error
description (first conjunct) — a diagnostic containing both the command
and the error description as substrings (second and third conjuncts) — and
no process output is consulted: the result is produced from the spawn
error alone, for every command and directory. -/
theorem spawn_failure_diagnostic :
    ∀ (cmd : List Char) (dir : Option (List Char)) (err : List Char),
      launch cmd dir (.error err) = .error (spawnErrorMsg cmd err) ∧
      containsSub cmd (spawnErrorMsg cmd err) = true ∧
      containsSub err (spawnErrorMsg cmd err) = true := by
  intro cmd dir err
  refine ⟨by rw [launch_eq_runCommand]; rfl, ?_, ?_⟩
  · rw [show spawnErrorMsg cmd err =
        str "An error occurred process command: " ++ (cmd ++ (str ".\n" ++ err)) from by
      simp [spawnErrorMsg, List.append_assoc]]
    exact containsSub_sandwich cmd _ _
  · rw [show spawnErrorMsg cmd err =
        (str "An error occurred process command: " ++ cmd ++ str ".\n") ++ (err ++ []) from by
      simp [spawnErrorMsg, List.append_assoc]]
    exact containsSub_sandwich err _ []

/-- C7 (evidence of the divergence): a successful job whose captured stdout
is 1,048,575 ASCII bytes followed by the two-byte character of code point
233 has byte 1,048,576 strictly inside that character, so `String::truncate`
panics and no `JobResult` is produced at all (first conjunct; `none` models
the panic), instead of the message being truncated to exactly 1,048,576
bytes as the claim states.  When the cap falls on a character boundary the
code does behave as claimed: 1,048,577 ASCII bytes are truncated to exactly
1,048,576 (second conjunct).  The third conjunct records that the captured
text of the panicking run indeed exceeds the cap. -/
theorem truncate_panic_on_char_boundary :
    process { command_template := str "x", parameters := [], exec_dir := none }
        { job_id := 123, status := .error, message := [] }
        (.ok { success := true,
               stdout := List.replicate 1048575 97 ++ [195, 169], stderr := [] }) = none ∧
    process { command_template := str "x", parameters := [], exec_dir := none }
        { job_id := 123, status := .error, message := [] }
        (.ok { success := true, stdout := List.replicate 1048577 97, stderr := [] }) =
      some (.ok { job_id := 123, status := .completed,
                  message := List.replicate 1048576 (Char.ofNat 97) }) ∧
    byteLen (List.replicate 1048575 (Char.ofNat 97) ++ [Char.ofNat 233]) = 1048577 := by
  have h97 : ∀ n, ∀ b ∈ List.replicate n (97 : Nat), b < 128 := by
    intro n b hb
    rw [List.eq_of_mem_replicate hb]
    omega
  have hb1 : byteLen (List.replicate 1048575 (Char.ofNat 97)) = 1048575 := by
    rw [byteLen_replicate, show charLen (Char.ofNat 97) = 1 from rfl, Nat.mul_one]
  have hb2 : byteLen (List.replicate 1048576 (Char.ofNat 97)) = 1048576 := by
    rw [byteLen_replicate, show charLen (Char.ofNat 97) = 1 from rfl, Nat.mul_one]
  have hdec1 : fromUtf8OrDefault (List.replicate 1048575 97 ++ [195, 169]) =
      List.replicate 1048575 (Char.ofNat 97) ++ [Char.ofNat 233] := by
    have e1 := utf8Decode_ascii_append (List.replicate 1048575 97) [195, 169] (h97 1048575)
    rw [show utf8Decode [195, 169] = some [Char.ofNat 233] from rfl] at e1
    simp only [Option.map_some', List.map_replicate] at e1
    simp only [fromUtf8OrDefault, e1, Option.getD_some]
  have hdec2 : fromUtf8OrDefault (List.replicate 1048577 97) =
      List.replicate 1048577 (Char.ofNat 97) := by
    have e1 := utf8Decode_ascii (List.replicate 1048577 97) (h97 1048577)
    simp only [List.map_replicate] at e1
    simp only [fromUtf8OrDefault, e1, Option.getD_some]
  have htr1 : truncAux 1048576
      (List.replicate 1048575 (Char.ofNat 97) ++ [Char.ofNat 233]) = none := by
    have e := truncAux_boundary (List.replicate 1048575 (Char.ofNat 97)) 1048576
      [Char.ofNat 233] (by rw [hb1]; omega)
    rw [hb1, show (1048576 - 1048575 : Nat) = 1 from by norm_num,
      show truncAux 1 [Char.ofNat 233] = none from by decide] at e
    simp only [Option.map_none'] at e
    exact e
  have htr2 : truncAux 1048576 (List.replicate 1048577 (Char.ofNat 97)) =
      some (List.replicate 1048576 (Char.ofNat 97)) := by
    have e3 : List.replicate 1048577 (Char.ofNat 97) =
        List.replicate 1048576 (Char.ofNat 97) ++ [Char.ofNat 97] := by
      rw [show (1048577 : Nat) = 1048576 + 1 from by norm_num, List.replicate_succ']
    have e := truncAux_boundary (List.replicate 1048576 (Char.ofNat 97)) 1048576
      [Char.ofNat 97] (by rw [hb2])
    rw [hb2, show (1048576 - 1048576 : Nat) = 0 from by norm_num,
      show truncAux 0 [Char.ofNat 97] = some [] from rfl] at e
    simp only [Option.map_some', List.append_nil] at e
    rw [← e3] at e
    exact e
  refine ⟨?_, ?_, ?_⟩
  · have hl : process { command_template := str "x", parameters := [], exec_dir := none }
        { job_id := 123, status := .error, message := [] }
        (.ok { success := true,
               stdout := List.replicate 1048575 97 ++ [195, 169], stderr := [] }) =
        (truncAux 1048576
            (fromUtf8OrDefault (List.replicate 1048575 97 ++ [195, 169]))).map fun r =>
          .ok { job_id := 123, status := .completed, message := r } := rfl
    rw [hdec1, htr1] at hl
    simp only [Option.map_none'] at hl
    exact hl
  · have hl : process { command_template := str "x", parameters := [], exec_dir := none }
        { job_id := 123, status := .error, message := [] }
        (.ok { success := true, stdout := List.replicate 1048577 97, stderr := [] }) =
        (truncAux 1048576 (fromUtf8OrDefault (List.replicate 1048577 97))).map fun r =>
          .ok { job_id := 123, status := .completed, message := r } := rfl
    rw [hdec2, htr2] at hl
    simp only [Option.map_some'] at hl
    exact hl
  · rw [byteLen_append, hb1, show byteLen [Char.ofNat 233] = 2 from rfl]
